import Mathlib

/-!
# Verification of the Scene Video Assembly Pipeline (`src/services/ffmpegService.js`)

A shallow embedding of the assembly pipeline of the reel-maker repository.
The JavaScript module orchestrates an embedded transcoding engine (ffmpeg.wasm):
it validates and stages scene media, writes one subtitle document per scene,
encodes one video segment per scene (with a one-shot retry without the subtitle
filter on failure), concatenates the segments, and reports progress through a
callback.

The embedding makes the engine interaction explicit: every virtual-filesystem
write, every command execution and every progress callback is recorded as an
event in a trace, and the engine's behaviour (per-command internal progress
reports and success / failure of each command) is supplied by an oracle indexed
by the global command-invocation counter.  Audio decoding
(`getAudioDuration`) is modelled by a duration field on the audio blob,
measured in milliseconds; the time arithmetic of the subtitle formatter is
modelled at millisecond granularity, on which the source's `toFixed(3)` is
exact.
-/

/-- An opaque media blob: a declared MIME type plus (for audio) the decoded
presentation length in milliseconds, standing for the value produced by
`getAudioDuration` (lines 24-31 of `ffmpegService.js`). -/
structure Blob where
  mime : String
  durationMs : Nat
  deriving DecidableEq

/-- One scene as consumed by `assembleVideo` (lines 54-61): `imageBlob` and
`audioBlob` may be null/undefined (`Option`), as may `narration`. -/
structure Scene where
  imageBlob : Option Blob
  audioBlob : Option Blob
  narration : Option String
  deriving DecidableEq

/-- The engine's behaviour for one `f.exec` invocation: the internal progress
fractions it reports to the subscribed listener while the command runs, and
whether the command resolves (`true`) or rejects (`false`). -/
structure ExecB where
  progressEvents : List ℚ
  success : Bool

/-- The status object passed to `onProgress` (line 114):
`{ currentScene, totalScenes }`, `currentScene` null during concat. -/
structure Status where
  currentScene : Option Nat
  totalScenes : Nat
  deriving DecidableEq

/-!
## Subtitle text cleaning (`cleanNarrationForSubtitles`, lines 36-38)

`(text || '').replace(/\[[^\]]*\]/g, '').replace(/\s+/g, ' ').trim() || ' '`
-/

/-- The character class of JavaScript `\s` (also the set trimmed by
`String.prototype.trim`): ASCII whitespace, NBSP, BOM and the Unicode
space separators and line terminators. -/
def isJsWs (c : Char) : Bool :=
  c == ' ' || c == '\t' || c == '\n' || c == '\r' ||
  c == Char.ofNat 0x0B || c == Char.ofNat 0x0C || c == Char.ofNat 0xA0 ||
  c == Char.ofNat 0x1680 ||
  (0x2000 ≤ c.toNat && c.toNat ≤ 0x200A) ||
  c == Char.ofNat 0x2028 || c == Char.ofNat 0x2029 ||
  c == Char.ofNat 0x202F || c == Char.ofNat 0x205F ||
  c == Char.ofNat 0x3000 || c == Char.ofNat 0xFEFF

/-- After a `[` that has a `]` somewhere after it, the regex
`/\[[^\]]*\]/` consumes up to and including the first such `]`; this is the
rest of the input after that `]`. -/
def skipToClose (l : List Char) : List Char :=
  (l.dropWhile (fun c => !(c == ']'))).drop 1

theorem length_dropWhile_le' (p : Char → Bool) (l : List Char) :
    (l.dropWhile p).length ≤ l.length := by
  induction l with
  | nil => simp [List.dropWhile]
  | cons c t ih =>
    rcases h : p c with _ | _
    · simp only [List.dropWhile, h]
      simp
    · simp only [List.dropWhile, h]
      exact Nat.le_succ_of_le ih

theorem length_skipToClose_le (l : List Char) :
    (skipToClose l).length ≤ l.length := by
  unfold skipToClose
  calc ((l.dropWhile fun c => !(c == ']')).drop 1).length
      ≤ (l.dropWhile fun c => !(c == ']')).length := by
        simp [List.length_drop]
    _ ≤ l.length := length_dropWhile_le' _ l

/-- Fuelled worker for the global replacement `/\[[^\]]*\]/g → ''`: a `[`
matches exactly when a `]` occurs later, in which case everything through the
first such `]` is dropped and scanning resumes after it; otherwise the
character is kept.  Fuel bounds the number of characters still to scan, so
`removeBrackets` below always supplies enough. -/
def removeBracketsAux : Nat → List Char → List Char
  | 0, _ => []
  | _ + 1, [] => []
  | fuel + 1, c :: rest =>
    if c = '[' ∧ ']' ∈ rest then removeBracketsAux fuel (skipToClose rest)
    else c :: removeBracketsAux fuel rest

/-- `.replace(/\[[^\]]*\]/g, '')` (line 37). -/
def removeBrackets (l : List Char) : List Char :=
  removeBracketsAux l.length l

/-- State-machine embedding of `.replace(/\s+/g, ' ')` (line 37): each maximal
run of whitespace becomes a single space; `inRun` records whether the previous
character was part of a whitespace run already replaced. -/
def collapseWsAux : List Char → Bool → List Char
  | [], _ => []
  | c :: rest, inRun =>
    if isJsWs c then
      if inRun then collapseWsAux rest true
      else ' ' :: collapseWsAux rest true
    else c :: collapseWsAux rest false

def collapseWs (l : List Char) : List Char := collapseWsAux l false

/-- `String.prototype.trim`: remove leading and trailing whitespace. -/
def trimWs (l : List Char) : List Char :=
  ((l.dropWhile isJsWs).reverse.dropWhile isJsWs).reverse

/-- `cleanNarrationForSubtitles` (lines 36-38).  A null or undefined
`text` is coerced to `''` by `(text || '')`, as is the empty string itself;
the final `|| ' '` substitutes a single space for an empty cleaned result. -/
def cleanNarrationForSubtitles (text : Option String) : String :=
  let cleaned := trimWs (collapseWs (removeBrackets (text.getD "").data))
  if cleaned = [] then " " else ⟨cleaned⟩

/-!
## Timestamp formatting (`sceneToSRT`, lines 43-52)

The `fmt` closure computes `h = ⌊s/3600⌋`, `m = ⌊(s mod 3600)/60⌋` and renders
the seconds as `(s mod 60).toFixed(3)` with the dot replaced by a comma.
Hours and minutes go through `String(·).padStart(2, '0')`; the seconds string
does not.  Times are modelled in whole milliseconds, on which `toFixed(3)` is
exact. -/

/-- `String(n).padStart(2, '0')`. -/
def pad2 (n : Nat) : String :=
  if n < 10 then "0" ++ Nat.repr n else Nat.repr n

/-- The three digits after the decimal point of `toFixed(3)`,
for a remainder `n < 1000` milliseconds. -/
def pad3ms (n : Nat) : String :=
  if n < 10 then "00" ++ Nat.repr n
  else if n < 100 then "0" ++ Nat.repr n
  else Nat.repr n

/-- `(s mod 60).toFixed(3).replace('.', ',')` where the input is
`msRem = (ms mod 60000)` milliseconds. -/
def toFixed3comma (msRem : Nat) : String :=
  Nat.repr (msRem / 1000) ++ "," ++ pad3ms (msRem % 1000)

/-- The `fmt` closure of `sceneToSRT` (lines 44-49), on a time of `ms`
milliseconds. -/
def fmtMs (ms : Nat) : String :=
  pad2 (ms / 3600000) ++ ":" ++ pad2 (ms % 3600000 / 60000) ++ ":" ++
    toFixed3comma (ms % 60000)

/-- `sceneToSRT` (lines 43-52): one cue, index 1, from `startMs` to `endMs`. -/
def sceneToSRT (narration : Option String) (startMs endMs : Nat) : String :=
  "1\n" ++ fmtMs startMs ++ " --> " ++ fmtMs endMs ++ "\n" ++
    cleanNarrationForSubtitles narration ++ "\n"

/-!
## Engine interaction model

Events record every interaction `assembleVideo` has with the engine handle and
with the caller's progress callback, in program order.  `f.exec` commands are
recorded structurally: the scene-encode command of lines 140-151 / 154-165
(which differ only in the `-vf` filter chain) and the concat command of
lines 175-178.
-/

/-- One element of the `-vf` filter chain (lines 132-137).  `scale` stands for
`scale=720:1280:force_original_aspect_ratio=decrease`, `pad` for
`pad=720:1280:(ow-iw)/2:(oh-ih)/2`, and `subtitles p` for
`subtitles=p:fontsdir=/fonts:force_style=...` with the fixed style string of
line 134. -/
inductive VFilter
  | scale
  | subtitles (srtPath : String)
  | pad
  deriving DecidableEq

/-- The argument structure of the per-scene encode command (lines 140-151 and
154-165): `-loop 1 -t totalDuration -i img -i audio -vf vf <codecV>
-af apad=pad_dur=<padDur> -c:a <codecA> -shortest -y out`. -/
structure EncArgs where
  sceneIdx : Nat
  totalDuration : ℚ
  img : String
  audio : String
  vf : List VFilter
  codecV : List String
  padDur : ℚ
  codecA : String
  out : String
  deriving DecidableEq

/-- The video-codec argument literals shared by both encode call sites
(lines 146 and 160). -/
def codecVArgs : List String :=
  ["-c:v", "libx264", "-preset", "ultrafast", "-crf", "28", "-tune",
   "stillimage", "-pix_fmt", "yuv420p", "-r", "15"]

/-- A trace event: an engine-filesystem or engine-command interaction, or a
call of the caller's `onProgress` callback.  `prog frac none` is the bare
`onProgress?.(0)` of line 87, which passes no status object. -/
inductive Ev
  | engineLoad
  | createDir (name : String)
  | writeFile (name : String) (content : Option String)
  | execEnc (args : EncArgs)
  | execConcat (listFile : String) (out : String)
  | prog (frac : ℚ) (status : Option Status)
  | readFile (name : String)
  deriving DecidableEq

/-- Outcome of one `assembleVideo` call: resolved, rejected with the message of
a thrown `Error`, or rejected with the opaque engine error of a failed
`f.exec`. -/
inductive Res
  | ok
  | err (msg : String)
  | execFailed
  deriving DecidableEq

/-- Result of one `fetch(url)`: the promise rejects (`thrown`), resolves with
`res.ok` false (`notOk`), or resolves with body data (`ok`). -/
inductive FetchRes
  | thrown
  | notOk
  | ok (data : Nat)
  deriving DecidableEq

def isOkFetch : FetchRes → Bool
  | .ok _ => true
  | _ => false

/-- Line 63. -/
def FONT_URL : String :=
  "https://cdn.jsdelivr.net/npm/dejavu-fonts-ttf/ttf/DejaVuSans.ttf"

/-- The local font path tried first (line 73). -/
def LOCAL_FONT_PATH : String := "/fonts/DejaVuSans.ttf"

/-- Line 117: `0.1` seconds of silence appended after each scene. -/
def GAP_SEC : ℚ := 1 / 10

def imgName (i : Nat) : String := "scene_" ++ Nat.repr i ++ "_img.png"

def audioName (i : Nat) (ext : String) : String :=
  "scene_" ++ Nat.repr i ++ "_audio." ++ ext

def srtName (i : Nat) : String := "scene_" ++ Nat.repr i ++ ".srt"

def vidName (i : Nat) : String := "scene_" ++ Nat.repr i ++ "_vid.mp4"

/-- The message of the `Error` thrown at line 99. -/
def missingMsg (n : Nat) : String :=
  "Scene " ++ Nat.repr n ++ " missing image or audio"

/-- `loadFontForSubtitles` (lines 65-83): create the `fonts` directory
(failure swallowed), then try the local path and the remote URL in order; the
first successful fetch has its bytes written to `fonts/DejaVuSans.ttf` and the
loop returns; every failure (rejected fetch or `!res.ok`) is swallowed, so the
function never throws.  Returns the list of URLs attempted and the events
produced. -/
def loadFontForSubtitles (fetch : String → FetchRes) : List String × List Ev :=
  match fetch LOCAL_FONT_PATH with
  | .ok _ =>
    ([LOCAL_FONT_PATH],
     [Ev.createDir "fonts", Ev.writeFile "fonts/DejaVuSans.ttf" none])
  | _ =>
    match fetch FONT_URL with
    | .ok _ =>
      ([LOCAL_FONT_PATH, FONT_URL],
       [Ev.createDir "fonts", Ev.writeFile "fonts/DejaVuSans.ttf" none])
    | _ => ([LOCAL_FONT_PATH, FONT_URL], [Ev.createDir "fonts"])

/-- `(s.audioBlob?.type || '').includes('mpeg') ? 'mp3' : 'wav'` (line 102). -/
def containsSeq (needle : List Char) : List Char → Bool
  | [] => needle.isEmpty
  | c :: rest => needle.isPrefixOf (c :: rest) || containsSeq needle rest

def extOf (b : Blob) : String :=
  if containsSeq "mpeg".data b.mime.data then "mp3" else "wav"

/-- The staging loop (lines 97-107): per scene, in order, check
`!s.imageBlob || !s.audioBlob` and throw `Scene ${i+1} missing image or audio`
on the first failure; otherwise write the scene's image and audio files and
record `(narration, ext, durationMs)` for the render loop.  Returns the events
produced, the thrown message (if any) and the recorded per-scene data. -/
def stageLoop : List Scene → Nat → List Ev × Option String × List (Option String × String × Nat)
  | [], _ => ([], none, [])
  | s :: rest, i =>
    match s.imageBlob, s.audioBlob with
    | some _, some a =>
      let ext := extOf a
      let r := stageLoop rest (i + 1)
      (Ev.writeFile (imgName i) none :: Ev.writeFile (audioName i ext) none :: r.1,
       r.2.1, (s.narration, ext, a.durationMs) :: r.2.2)
    | _, _ => ([], some (missingMsg (i + 1)), [])

/-- Index of the first scene with a missing image or audio blob, if any. -/
def firstMissing : List Scene → Option Nat
  | [] => none
  | s :: rest =>
    if s.imageBlob.isNone || s.audioBlob.isNone then some 0
    else (firstMissing rest).map (· + 1)

/-- The `overall` fraction of line 111:
`Math.min(1, (currentStep + Math.min(1, progress)) / totalSteps)` with
`totalSteps = totalScenes + 1`. -/
def stepFrac (totalScenes currentStep : Nat) (p : ℚ) : ℚ :=
  min 1 (((currentStep : ℚ) + min 1 p) / ((totalScenes : ℚ) + 1))

/-- The `f.on('progress', ...)` handler (lines 110-115): overall fraction and
status, with `currentScene` the 1-based step while `currentStep <
scenes.length` and null during concat. -/
def progressHandler (totalScenes currentStep : Nat) (p : ℚ) : ℚ × Status :=
  (stepFrac totalScenes currentStep p,
   ⟨if currentStep < totalScenes then some (currentStep + 1) else none,
    totalScenes⟩)

/-- The `onProgress` calls fired by the engine while one command runs with
`currentStep = step`. -/
def engineProgEvs (totalScenes step : Nat) (ps : List ℚ) : List Ev :=
  ps.map fun p =>
    Ev.prog (progressHandler totalScenes step p).1
      (some (progressHandler totalScenes step p).2)

/-- The filter chain of lines 135-137: scale → subtitles → pad when subtitles
are included, scale → pad otherwise. -/
def sceneVF (includeSubtitles : Bool) (i : Nat) : List VFilter :=
  if includeSubtitles then [VFilter.scale, VFilter.subtitles (srtName i), VFilter.pad]
  else [VFilter.scale, VFilter.pad]

/-- The encode command arguments of lines 140-151 (and identically 154-165,
which differ only in the filter chain passed as `vf`). -/
def encArgs (i : Nat) (totalDuration : ℚ) (ext : String) (vf : List VFilter) : EncArgs :=
  { sceneIdx := i, totalDuration := totalDuration, img := imgName i,
    audio := audioName i ext, vf := vf, codecV := codecVArgs,
    padDur := GAP_SEC, codecA := "aac", out := vidName i }

/-- The body of the render loop for scene `i` (lines 119-167): the direct
progress call of line 121, the subtitle-document write of lines 125-127, the
encode attempt, and on its failure the retry of lines 154-165 with the
subtitle-free chain.  `k` is the global exec-invocation counter; returns the
events, whether the scene succeeded, and the new counter. -/
def renderScene (totalScenes : Nat) (oracle : Nat → ExecB) (k i : Nat)
    (narr : Option String) (ext : String) (durMs : Nat)
    (includeSubtitles : Bool) : List Ev × Bool × Nat :=
  let totalDuration : ℚ := (durMs : ℚ) / 1000 + GAP_SEC
  let headEvs :=
    [Ev.prog ((i : ℚ) / ((totalScenes : ℚ) + 1))
       (some ⟨some (i + 1), totalScenes⟩),
     Ev.writeFile (srtName i) (some (sceneToSRT narr 0 durMs))]
  let b1 := oracle k
  let evs1 := Ev.execEnc (encArgs i totalDuration ext (sceneVF includeSubtitles i)) ::
    engineProgEvs totalScenes i b1.progressEvents
  if b1.success then (headEvs ++ evs1, true, k + 1)
  else
    let b2 := oracle (k + 1)
    let evs2 := Ev.execEnc (encArgs i totalDuration ext [VFilter.scale, VFilter.pad]) ::
      engineProgEvs totalScenes i b2.progressEvents
    (headEvs ++ evs1 ++ evs2, b2.success, k + 2)

/-- The render loop over the staged scene data (lines 119-168), pushing
`scene_i_vid.mp4` on success and stopping at the first scene whose retry also
fails. -/
def sceneLoop (totalScenes : Nat) (oracle : Nat → ExecB) (subs : Bool) :
    List (Option String × String × Nat) → Nat → Nat →
      List Ev × Bool × Nat × List String
  | [], _, k => ([], true, k, [])
  | m :: rest, i, k =>
    let r := renderScene totalScenes oracle k i m.1 m.2.1 m.2.2 subs
    if r.2.1 then
      let r' := sceneLoop totalScenes oracle subs rest (i + 1) r.2.2
      (r.1 ++ r'.1, r'.2.1, r'.2.2.1, vidName i :: r'.2.2.2)
    else (r.1, false, r.2.2, [])

/-- The concat manifest written to `concat.txt` (line 170):
`file 'scene_i_vid.mp4'` lines joined by newlines, in segment order. -/
def concatManifest (vids : List String) : String :=
  String.intercalate "\n" (vids.map fun name => "file \x27" ++ name ++ "\x27")

/-- `assembleVideo` (lines 85-182).  Parameters: the scene list, the
`includeSubtitles` option (default true in the source), the engine-command
oracle, and the fetch oracle used by the font loader.  Produces the event
trace and the outcome. -/
def assembleVideo (scenes : List Scene) (includeSubtitles : Bool)
    (oracle : Nat → ExecB) (fetch : String → FetchRes) : List Ev × Res :=
  let N := scenes.length
  let fontEvs := if includeSubtitles then (loadFontForSubtitles fetch).2 else []
  let st := stageLoop scenes 0
  let pre := Ev.prog 0 none :: Ev.engineLoad :: fontEvs ++ st.1
  match st.2.1 with
  | some msg => (pre, Res.err msg)
  | none =>
    let lp := sceneLoop N oracle includeSubtitles st.2.2 0 0
    if lp.2.1 then
      let cEvs := [Ev.writeFile "concat.txt" (some (concatManifest lp.2.2.2)),
                   Ev.prog ((N : ℚ) / ((N : ℚ) + 1)) (some ⟨none, N⟩)]
      let bC := oracle lp.2.2.1
      let cExec := Ev.execConcat "concat.txt" "output.mp4" ::
        engineProgEvs N N bC.progressEvents
      if bC.success then
        (pre ++ lp.1 ++ cEvs ++ cExec ++ [Ev.readFile "output.mp4"], Res.ok)
      else (pre ++ lp.1 ++ cEvs ++ cExec, Res.execFailed)
    else (pre ++ lp.1, Res.execFailed)

/-!
## Trace projections
-/

/-- The sequence of overall fractions passed to `onProgress`, in call order. -/
def progFracs : List Ev → List ℚ
  | [] => []
  | Ev.prog fr _ :: rest => fr :: progFracs rest
  | _ :: rest => progFracs rest

/-- The names of the files written into the engine filesystem, in order. -/
def writeNames : List Ev → List String
  | [] => []
  | Ev.writeFile n _ :: rest => n :: writeNames rest
  | _ :: rest => writeNames rest

/-- The scene-encode commands executed, in order. -/
def execEncs : List Ev → List EncArgs
  | [] => []
  | Ev.execEnc a :: rest => a :: execEncs rest
  | _ :: rest => execEncs rest

/-- The concat commands executed, in order. -/
def execConcats : List Ev → List (String × String)
  | [] => []
  | Ev.execConcat l o :: rest => (l, o) :: execConcats rest
  | _ :: rest => execConcats rest

def isExecEv : Ev → Bool
  | Ev.execEnc _ => true
  | Ev.execConcat _ _ => true
  | _ => false

/-!
## Properties of the subtitle text cleaner

`hasBracketPair l` holds exactly when `l` still contains a match of
`/\[[^\]]*\]/`, i.e. a `[` with some `]` after it.  `hasAdjWs` detects two
adjacent whitespace characters, i.e. an uncollapsed whitespace run.
-/

def hasBracketPair : List Char → Bool
  | [] => false
  | c :: rest => (c == '[' && rest.contains ']') || hasBracketPair rest

def headIsWs : List Char → Bool
  | [] => false
  | c :: _ => isJsWs c

def lastIsWs (l : List Char) : Bool := headIsWs l.reverse

def hasAdjWs : List Char → Bool
  | c1 :: c2 :: rest => (isJsWs c1 && isJsWs c2) || hasAdjWs (c2 :: rest)
  | _ => false

theorem mem_skipToClose {x : Char} {l : List Char} (h : x ∈ skipToClose l) :
    x ∈ l := by
  unfold skipToClose at h
  exact (List.dropWhile_sublist _).subset ((List.drop_sublist 1 _).subset h)

theorem mem_removeBracketsAux {x : Char} :
    ∀ fuel l, x ∈ removeBracketsAux fuel l → x ∈ l := by
  intro fuel
  induction fuel with
  | zero => intro l h; simp [removeBracketsAux] at h
  | succ n ih =>
    intro l h
    cases l with
    | nil => simp [removeBracketsAux] at h
    | cons c rest =>
      by_cases hc : c = '[' ∧ ']' ∈ rest
      · simp only [removeBracketsAux, if_pos hc] at h
        exact List.mem_cons_of_mem _ (mem_skipToClose (ih _ h))
      · simp only [removeBracketsAux, if_neg hc, List.mem_cons] at h
        rcases h with h | h
        · exact h ▸ List.mem_cons_self _ _
        · exact List.mem_cons_of_mem _ (ih _ h)

theorem hasBracketPair_cons (c : Char) (l : List Char) :
    hasBracketPair (c :: l) = ((c == '[' && l.contains ']') || hasBracketPair l) :=
  rfl

theorem hasBracketPair_removeBracketsAux :
    ∀ fuel l, l.length ≤ fuel → hasBracketPair (removeBracketsAux fuel l) = false := by
  intro fuel
  induction fuel with
  | zero => intro l _; simp [removeBracketsAux, hasBracketPair]
  | succ n ih =>
    intro l hl
    cases l with
    | nil => simp [removeBracketsAux, hasBracketPair]
    | cons c rest =>
      by_cases hc : c = '[' ∧ ']' ∈ rest
      · simp only [removeBracketsAux, if_pos hc]
        exact ih _ (le_trans (length_skipToClose_le rest) (by simpa using hl))
      · simp only [removeBracketsAux, if_neg hc, hasBracketPair_cons]
        have hrest : hasBracketPair (removeBracketsAux n rest) = false :=
          ih _ (by simpa using hl)
        by_cases hb : c = '['
        · have hnr : ']' ∉ rest := fun hm => hc ⟨hb, hm⟩
          have hcont : (removeBracketsAux n rest).contains ']' = false := by
            cases hx : (removeBracketsAux n rest).contains ']'
            · rfl
            · exact absurd (mem_removeBracketsAux _ _ (by simpa using hx)) hnr
          simp only [hrest, Bool.or_false, Bool.and_eq_false_iff, hcont]
          right
          trivial
        · simp [hb, hrest]

theorem mem_collapseWsAux {x : Char} :
    ∀ l b, x ∈ collapseWsAux l b → x = ' ' ∨ x ∈ l := by
  intro l
  induction l with
  | nil => intro b h; simp [collapseWsAux] at h
  | cons c rest ih =>
    intro b h
    by_cases hw : isJsWs c = true
    · cases b with
      | true =>
        rw [show collapseWsAux (c :: rest) true = collapseWsAux rest true by
          simp [collapseWsAux, hw]] at h
        rcases ih true h with h' | h'
        · exact Or.inl h'
        · exact Or.inr (List.mem_cons_of_mem _ h')
      | false =>
        rw [show collapseWsAux (c :: rest) false = ' ' :: collapseWsAux rest true by
          simp [collapseWsAux, hw]] at h
        rcases List.mem_cons.mp h with h | h
        · exact Or.inl h
        · rcases ih true h with h' | h'
          · exact Or.inl h'
          · exact Or.inr (List.mem_cons_of_mem _ h')
    · rw [Bool.not_eq_true] at hw
      rw [show collapseWsAux (c :: rest) b = c :: collapseWsAux rest false by
        simp [collapseWsAux, hw]] at h
      rcases List.mem_cons.mp h with h | h
      · exact Or.inr (h ▸ List.mem_cons_self _ _)
      · rcases ih false h with h' | h'
        · exact Or.inl h'
        · exact Or.inr (List.mem_cons_of_mem _ h')

theorem headIsWs_collapseWsAux_true :
    ∀ l, headIsWs (collapseWsAux l true) = false := by
  intro l
  induction l with
  | nil => rfl
  | cons c rest ih =>
    by_cases hw : isJsWs c = true
    · rw [show collapseWsAux (c :: rest) true = collapseWsAux rest true by
        simp [collapseWsAux, hw]]
      exact ih
    · rw [Bool.not_eq_true] at hw
      rw [show collapseWsAux (c :: rest) true = c :: collapseWsAux rest false by
        simp [collapseWsAux, hw]]
      exact hw

theorem hasAdjWs_cons (c : Char) (l : List Char) :
    hasAdjWs (c :: l) = ((isJsWs c && headIsWs l) || hasAdjWs l) := by
  cases l with
  | nil => simp [hasAdjWs, headIsWs]
  | cons d t => rfl

theorem hasAdjWs_collapseWsAux : ∀ l b, hasAdjWs (collapseWsAux l b) = false := by
  intro l
  induction l with
  | nil => intro b; rfl
  | cons c rest ih =>
    intro b
    by_cases hw : isJsWs c = true
    · cases b with
      | true =>
        rw [show collapseWsAux (c :: rest) true = collapseWsAux rest true by
          simp [collapseWsAux, hw]]
        exact ih true
      | false =>
        rw [show collapseWsAux (c :: rest) false = ' ' :: collapseWsAux rest true by
          simp [collapseWsAux, hw]]
        rw [hasAdjWs_cons, headIsWs_collapseWsAux_true, ih true]
        simp
    · rw [Bool.not_eq_true] at hw
      rw [show collapseWsAux (c :: rest) b = c :: collapseWsAux rest false by
        simp [collapseWsAux, hw]]
      rw [hasAdjWs_cons, hw, ih false]
      simp

theorem hasBracketPair_collapseWsAux :
    ∀ l b, hasBracketPair l = false → hasBracketPair (collapseWsAux l b) = false := by
  intro l
  induction l with
  | nil => intro b _; rfl
  | cons c rest ih =>
    intro b h
    rw [hasBracketPair_cons, Bool.or_eq_false_iff] at h
    by_cases hw : isJsWs c = true
    · cases b with
      | true =>
        rw [show collapseWsAux (c :: rest) true = collapseWsAux rest true by
          simp [collapseWsAux, hw]]
        exact ih true h.2
      | false =>
        rw [show collapseWsAux (c :: rest) false = ' ' :: collapseWsAux rest true by
          simp [collapseWsAux, hw]]
        rw [hasBracketPair_cons, ih true h.2]
        simp
    · rw [Bool.not_eq_true] at hw
      rw [show collapseWsAux (c :: rest) b = c :: collapseWsAux rest false by
        simp [collapseWsAux, hw]]
      rw [hasBracketPair_cons, ih false h.2, Bool.or_false]
      by_cases hb : c = '['
      · have hnr : (']' : Char) ∉ rest := by
          intro hm
          rw [Bool.and_eq_false_iff] at h
          rcases h.1 with h' | h'
          · rw [hb] at h'; simp at h'
          · simp at h'; exact h' hm
        have hcont : (collapseWsAux rest false).contains ']' = false := by
          cases hx : (collapseWsAux rest false).contains ']'
          · rfl
          · rcases mem_collapseWsAux _ _ (by simpa using hx) with h' | h'
            · exact absurd h' (by decide)
            · exact absurd h' hnr
        rw [hcont, Bool.and_false]
      · simp [hb]

theorem dropWhile_isSuffix (p : Char → Bool) :
    ∀ l : List Char, l.dropWhile p <:+ l := by
  intro l
  induction l with
  | nil => exact List.suffix_refl _
  | cons c t ih =>
    by_cases h : p c = true
    · rw [List.dropWhile_cons_of_pos h]
      exact ih.trans (List.suffix_cons c t)
    · rw [List.dropWhile_cons_of_neg (by simpa using h)]

theorem hasBracketPair_of_suffix :
    ∀ l₂ l₁ : List Char, l₁ <:+ l₂ → hasBracketPair l₂ = false →
      hasBracketPair l₁ = false := by
  intro l₂
  induction l₂ with
  | nil => intro l₁ hs _; rw [List.suffix_nil.mp hs]; rfl
  | cons c t ih =>
    intro l₁ hs h
    rw [hasBracketPair_cons, Bool.or_eq_false_iff] at h
    rcases List.suffix_cons_iff.mp hs with h' | h'
    · rw [h', hasBracketPair_cons, Bool.or_eq_false_iff]
      exact ⟨h.1, h.2⟩
    · exact ih _ h' h.2

theorem hasBracketPair_of_isPrefixOf :
    ∀ l₁ l₂ : List Char, l₁ <+: l₂ → hasBracketPair l₂ = false →
      hasBracketPair l₁ = false := by
  intro l₁
  induction l₁ with
  | nil => intro l₂ _ _; rfl
  | cons c t ih =>
    intro l₂ hp h
    rcases l₂ with _ | ⟨d, t₂⟩
    · exact absurd (List.prefix_nil.mp hp) (by simp)
    · rcases List.cons_prefix_cons.mp hp with ⟨hcd, ht⟩
      subst hcd
      rw [hasBracketPair_cons, Bool.or_eq_false_iff] at h
      rw [hasBracketPair_cons, Bool.or_eq_false_iff]
      refine ⟨?_, ih _ ht h.2⟩
      rcases Bool.and_eq_false_iff.mp h.1 with h' | h'
      · rw [Bool.and_eq_false_iff]; exact Or.inl h'
      · rw [Bool.and_eq_false_iff]
        right
        cases hx : t.contains ']'
        · rfl
        · have : (']' : Char) ∈ t₂ := ht.subset (by simpa using hx)
          rw [Bool.eq_false_iff] at h'
          exact absurd (by simpa using this) h'

theorem hasAdjWs_tail (c : Char) (l : List Char)
    (h : hasAdjWs (c :: l) = false) : hasAdjWs l = false := by
  rw [hasAdjWs_cons, Bool.or_eq_false_iff] at h
  exact h.2

theorem hasAdjWs_of_suffix :
    ∀ l₂ l₁ : List Char, l₁ <:+ l₂ → hasAdjWs l₂ = false →
      hasAdjWs l₁ = false := by
  intro l₂
  induction l₂ with
  | nil => intro l₁ hs _; rw [List.suffix_nil.mp hs]; rfl
  | cons c t ih =>
    intro l₁ hs h
    rcases List.suffix_cons_iff.mp hs with h' | h'
    · rw [h']; exact h
    · exact ih _ h' (hasAdjWs_tail _ _ h)

theorem headIsWs_of_isPrefixOf :
    ∀ l₁ l₂ : List Char, l₁ <+: l₂ → headIsWs l₂ = false →
      headIsWs l₁ = false := by
  intro l₁ l₂ hp h
  rcases l₁ with _ | ⟨c, t⟩
  · rfl
  · rcases l₂ with _ | ⟨d, t₂⟩
    · exact absurd (List.prefix_nil.mp hp) (by simp)
    · rcases List.cons_prefix_cons.mp hp with ⟨hcd, _⟩
      subst hcd
      exact h

theorem hasAdjWs_of_isPrefixOf :
    ∀ l₁ l₂ : List Char, l₁ <+: l₂ → hasAdjWs l₂ = false →
      hasAdjWs l₁ = false := by
  intro l₁
  induction l₁ with
  | nil => intro l₂ _ _; rfl
  | cons c t ih =>
    intro l₂ hp h
    rcases l₂ with _ | ⟨d, t₂⟩
    · exact absurd (List.prefix_nil.mp hp) (by simp)
    · rcases List.cons_prefix_cons.mp hp with ⟨hcd, ht⟩
      subst hcd
      rw [hasAdjWs_cons, Bool.or_eq_false_iff] at h
      rw [hasAdjWs_cons, Bool.or_eq_false_iff]
      refine ⟨?_, ih _ ht h.2⟩
      rcases Bool.and_eq_false_iff.mp h.1 with h' | h'
      · rw [Bool.and_eq_false_iff]; exact Or.inl h'
      · rw [Bool.and_eq_false_iff]
        right
        exact headIsWs_of_isPrefixOf _ _ ht h'

theorem headIsWs_dropWhile (l : List Char) :
    headIsWs (l.dropWhile isJsWs) = false := by
  induction l with
  | nil => rfl
  | cons c t ih =>
    by_cases h : isJsWs c = true
    · rw [List.dropWhile_cons_of_pos h]; exact ih
    · rw [List.dropWhile_cons_of_neg (by simpa using h)]
      simpa using h

theorem trimWs_isPrefixOf (l : List Char) : trimWs l <+: l.dropWhile isJsWs := by
  unfold trimWs
  rw [← List.reverse_suffix]
  rw [List.reverse_reverse]
  exact dropWhile_isSuffix _ _

theorem trimWs_suffix_of_dropWhile (l : List Char) :
    (l.dropWhile isJsWs).reverse.dropWhile isJsWs <:+ (l.dropWhile isJsWs).reverse :=
  dropWhile_isSuffix _ _

theorem headIsWs_trimWs (l : List Char) : headIsWs (trimWs l) = false :=
  headIsWs_of_isPrefixOf _ _ (trimWs_isPrefixOf l) (headIsWs_dropWhile l)

theorem lastIsWs_trimWs (l : List Char) : lastIsWs (trimWs l) = false := by
  unfold lastIsWs trimWs
  rw [List.reverse_reverse]
  exact headIsWs_dropWhile _

theorem hasBracketPair_trimWs (l : List Char) (h : hasBracketPair l = false) :
    hasBracketPair (trimWs l) = false :=
  hasBracketPair_of_isPrefixOf _ _ (trimWs_isPrefixOf l)
    (hasBracketPair_of_suffix _ _ (dropWhile_isSuffix _ l) h)

theorem hasAdjWs_trimWs (l : List Char) (h : hasAdjWs l = false) :
    hasAdjWs (trimWs l) = false :=
  hasAdjWs_of_isPrefixOf _ _ (trimWs_isPrefixOf l)
    (hasAdjWs_of_suffix _ _ (dropWhile_isSuffix _ l) h)

/-- Claim C5 (confirmed): for all narration inputs (including null/undefined),
the cue text emitted by the cleaner contains no bracketed run `[...]` — no `[`
with a matching `]` after it survives — every whitespace run is collapsed (no
two adjacent whitespace characters remain) and the result is trimmed (its
first and last characters are not whitespace), except that the empty cleaned
result is replaced by the single space `' '`; in particular the result is
never the empty string. -/
theorem C5_subtitle_text_clean (t : Option String) :
    hasBracketPair (cleanNarrationForSubtitles t).data = false ∧
    cleanNarrationForSubtitles t ≠ "" ∧
    (cleanNarrationForSubtitles t = " " ∨
      (hasAdjWs (cleanNarrationForSubtitles t).data = false ∧
       headIsWs (cleanNarrationForSubtitles t).data = false ∧
       lastIsWs (cleanNarrationForSubtitles t).data = false)) := by
  by_cases hc : trimWs (collapseWs (removeBrackets (t.getD "").data)) = []
  · have hval : cleanNarrationForSubtitles t = " " := by
      unfold cleanNarrationForSubtitles
      rw [if_pos hc]
    refine ⟨?_, ?_, Or.inl hval⟩
    · rw [hval]; decide
    · rw [hval]; decide
  · have hval : cleanNarrationForSubtitles t =
        ⟨trimWs (collapseWs (removeBrackets (t.getD "").data))⟩ := by
      unfold cleanNarrationForSubtitles
      rw [if_neg hc]
    have hdata : (cleanNarrationForSubtitles t).data =
        trimWs (collapseWs (removeBrackets (t.getD "").data)) := by
      rw [hval]
    have hrb : hasBracketPair (removeBrackets (t.getD "").data) = false :=
      hasBracketPair_removeBracketsAux _ _ le_rfl
    refine ⟨?_, ?_, Or.inr ⟨?_, ?_, ?_⟩⟩
    · rw [hdata]
      exact hasBracketPair_trimWs _ (hasBracketPair_collapseWsAux _ _ hrb)
    · intro hemp
      apply hc
      have := congrArg String.data hemp
      rw [hdata] at this
      exact this
    · rw [hdata]
      exact hasAdjWs_trimWs _ (hasAdjWs_collapseWsAux _ _)
    · rw [hdata]; exact headIsWs_trimWs _
    · rw [hdata]; exact lastIsWs_trimWs _

/-!
## Timestamp format properties
-/

/-- The format the specification claims for both cue timestamps:
exactly `HH:MM:SS,mmm` with two-digit zero-padded hours, minutes and whole
seconds and exactly three millisecond digits. -/
def isClaimedTimestampFormat (s : String) : Bool :=
  match s.data with
  | [h1, h2, c1, m1, m2, c2, s1, s2, c3, d1, d2, d3] =>
    h1.isDigit && h2.isDigit && (c1 == ':') && m1.isDigit && m2.isDigit &&
    (c2 == ':') && s1.isDigit && s2.isDigit && (c3 == ',') &&
    d1.isDigit && d2.isDigit && d3.isDigit
  | _ => false

theorem repr_length_lt10 : ∀ n < 10, (Nat.repr n).length = 1 := by decide

theorem repr_length_lt100 : ∀ n < 100, 10 ≤ n → (Nat.repr n).length = 2 := by
  decide

set_option maxRecDepth 4000 in
theorem repr_length_lt1000 : ∀ n < 1000, 100 ≤ n → (Nat.repr n).length = 3 := by
  decide

theorem pad2_length (n : Nat) (h : n < 100) : (pad2 n).length = 2 := by
  unfold pad2
  by_cases h10 : n < 10
  · rw [if_pos h10, String.length_append, repr_length_lt10 n h10]
    decide
  · rw [if_neg h10]
    exact repr_length_lt100 n h (Nat.le_of_not_lt h10)

theorem pad3ms_length (n : Nat) (h : n < 1000) : (pad3ms n).length = 3 := by
  unfold pad3ms
  by_cases h10 : n < 10
  · rw [if_pos h10, String.length_append, repr_length_lt10 n h10]
    decide
  · rw [if_neg h10]
    by_cases h100 : n < 100
    · rw [if_pos h100, String.length_append,
        repr_length_lt100 n h100 (Nat.le_of_not_lt h10)]
      decide
    · rw [if_neg h100]
      exact repr_length_lt1000 n h (Nat.le_of_not_lt h100)

/-- Claim C4 as stated is false: at 7 seconds the `fmt` closure renders
`00:00:7,000` — the whole-seconds field is not zero-padded to two digits,
because the source applies `padStart(2, '0')` to hours and minutes but not to
the `toFixed(3)` seconds string.  The cue line of an `sceneToSRT` document at
`[0s, 7s)` therefore carries two timestamps violating `HH:MM:SS,mmm`. -/
theorem C4_cex :
    fmtMs 7000 = "00:00:7,000" ∧
    isClaimedTimestampFormat (fmtMs 7000) = false ∧
    sceneToSRT none 0 7000 = "1\n00:00:0,000 --> 00:00:7,000\n \n" := by
  refine ⟨?_, ?_, ?_⟩ <;> decide

/-- Claim C4 (corrected): below 100 hours both cue timestamps have two-digit
zero-padded hours and minutes, a comma, and exactly three millisecond digits,
but the whole-seconds field is unpadded: it is the bare decimal numeral, one
digit when the value is below ten and two digits otherwise. -/
theorem C4_amended (ms : Nat) (hms : ms < 360000000) :
    fmtMs ms = pad2 (ms / 3600000) ++ ":" ++ pad2 (ms % 3600000 / 60000) ++ ":" ++
      Nat.repr (ms % 60000 / 1000) ++ "," ++ pad3ms (ms % 1000) ∧
    (pad2 (ms / 3600000)).length = 2 ∧
    (pad2 (ms % 3600000 / 60000)).length = 2 ∧
    (pad3ms (ms % 1000)).length = 3 ∧
    (Nat.repr (ms % 60000 / 1000)).length =
      (if ms % 60000 / 1000 < 10 then 1 else 2) := by
  have hmod : ms % 60000 % 1000 = ms % 1000 :=
    Nat.mod_mod_of_dvd ms (by norm_num)
  have hh : ms / 3600000 < 100 := by
    rw [Nat.div_lt_iff_lt_mul (by norm_num)]
    exact lt_of_lt_of_le hms (by norm_num)
  have hm : ms % 3600000 / 60000 < 60 := by
    rw [Nat.div_lt_iff_lt_mul (by norm_num)]
    exact lt_of_lt_of_le (Nat.mod_lt ms (by norm_num)) (by norm_num)
  have hs : ms % 60000 / 1000 < 60 := by
    rw [Nat.div_lt_iff_lt_mul (by norm_num)]
    exact lt_of_lt_of_le (Nat.mod_lt ms (by norm_num)) (by norm_num)
  refine ⟨?_, pad2_length _ hh, pad2_length _ (lt_trans hm (by norm_num)),
    pad3ms_length _ (Nat.mod_lt ms (by norm_num)), ?_⟩
  · unfold fmtMs toFixed3comma
    rw [hmod]
    simp [String.append_assoc]
  · by_cases h10 : ms % 60000 / 1000 < 10
    · rw [if_pos h10]
      exact repr_length_lt10 _ h10
    · rw [if_neg h10]
      exact repr_length_lt100 _ (lt_trans hs (by norm_num)) (Nat.le_of_not_lt h10)

/-- Witness for `C4_amended` at 7.000 seconds. -/
theorem C4_witness :
    fmtMs 7000 = pad2 (7000 / 3600000) ++ ":" ++ pad2 (7000 % 3600000 / 60000) ++ ":" ++
      Nat.repr (7000 % 60000 / 1000) ++ "," ++ pad3ms (7000 % 1000) ∧
    (pad2 (7000 / 3600000)).length = 2 ∧
    (pad2 (7000 % 3600000 / 60000)).length = 2 ∧
    (pad3ms (7000 % 1000)).length = 3 ∧
    (Nat.repr (7000 % 60000 / 1000)).length =
      (if 7000 % 60000 / 1000 < 10 then 1 else 2) :=
  C4_amended 7000 (by decide)

/-!
## Font provisioning and result independence
-/

theorem assembleVideo_res_fetch_irrel (scenes : List Scene) (subs : Bool)
    (oracle : Nat → ExecB) (fetch fetch2 : String → FetchRes) :
    (assembleVideo scenes subs oracle fetch).2 =
      (assembleVideo scenes subs oracle fetch2).2 := by
  simp only [assembleVideo]
  cases he : (stageLoop scenes 0).2.1 with
  | some msg => simp [he]
  | none =>
    simp only [he]
    cases hok : (sceneLoop scenes.length oracle subs (stageLoop scenes 0).2.2 0 0).2.1 with
    | false => simp [hok]
    | true =>
      simp only [hok, if_true]
      cases hcs : (oracle (sceneLoop scenes.length oracle subs
          (stageLoop scenes 0).2.2 0 0).2.2.1).success <;>
        simp [hcs]

/-- Claim C8 (confirmed): `loadFontForSubtitles` attempts the local path
`/fonts/DejaVuSans.ttf` first; only when that fetch does not succeed does it
try the fixed remote URL; when both attempts fail it completes silently —
no font file is written and nothing is thrown (the function is total and
returns normally) — and the outcome of the assembly run does not depend on
the fetch results at all. -/
theorem C8_font_fallback (fetch fetch2 : String → FetchRes) (scenes : List Scene)
    (subs : Bool) (oracle : Nat → ExecB) :
    loadFontForSubtitles fetch =
      (if isOkFetch (fetch LOCAL_FONT_PATH) then
        ([LOCAL_FONT_PATH],
         [Ev.createDir "fonts", Ev.writeFile "fonts/DejaVuSans.ttf" none])
       else if isOkFetch (fetch FONT_URL) then
        ([LOCAL_FONT_PATH, FONT_URL],
         [Ev.createDir "fonts", Ev.writeFile "fonts/DejaVuSans.ttf" none])
       else ([LOCAL_FONT_PATH, FONT_URL], [Ev.createDir "fonts"])) ∧
    (assembleVideo scenes subs oracle fetch).2 =
      (assembleVideo scenes subs oracle fetch2).2 := by
  refine ⟨?_, assembleVideo_res_fetch_irrel scenes subs oracle fetch fetch2⟩
  unfold loadFontForSubtitles isOkFetch
  cases h1 : fetch LOCAL_FONT_PATH <;> simp [h1] <;>
    cases h2 : fetch FONT_URL <;> simp [h2]

/-!
## Progress handler properties
-/

/-- Claim C6 (confirmed): while scene `i` (0-based, of `N`) is being rendered,
every engine-progress callback reports overall fraction `(i + p) / (N + 1)`
for the engine's internal progress `p ∈ [0,1]`, with status
`currentScene = i + 1` (1-based); during the final merge step
(`currentStep = N`) the status carries `currentScene = none`. -/
theorem C6_engine_progress (N i : Nat) (ps : List ℚ) (q : ℚ) (hi : i < N)
    (hb : ∀ p ∈ ps, 0 ≤ p ∧ p ≤ 1) :
    engineProgEvs N i ps =
      ps.map (fun p => Ev.prog (((i : ℚ) + p) / ((N : ℚ) + 1))
        (some ⟨some (i + 1), N⟩)) ∧
    engineProgEvs N N [q] =
      [Ev.prog (min 1 (((N : ℚ) + min 1 q) / ((N : ℚ) + 1)))
        (some ⟨none, N⟩)] := by
  constructor
  · unfold engineProgEvs progressHandler stepFrac
    apply List.map_congr_left
    intro p hp
    have h0 : (0 : ℚ) ≤ p := (hb p hp).1
    have h1 : p ≤ 1 := (hb p hp).2
    have hminp : min 1 p = p := min_eq_right h1
    have hden : (0 : ℚ) < (N : ℚ) + 1 := by positivity
    have hlt : ((i : ℚ) + p) / ((N : ℚ) + 1) ≤ 1 := by
      rw [div_le_one hden]
      have hiN : (i : ℚ) + 1 ≤ (N : ℚ) := by
        exact_mod_cast Nat.succ_le_of_lt hi
      linarith
    rw [hminp, min_eq_right hlt]
    simp [hi]
  · unfold engineProgEvs progressHandler stepFrac
    simp

/-- Witness for `C6_engine_progress` at `N = 2`, `i = 1`,
`ps = [0, 1/2, 1]`, `q = 3`. -/
theorem C6_witness :
    engineProgEvs 2 1 [0, 1/2, 1] =
      [0, 1/2, 1].map (fun p => Ev.prog (((1 : ℚ) + p) / ((2 : ℚ) + 1))
        (some ⟨some 2, 2⟩)) ∧
    engineProgEvs 2 2 [3] =
      [Ev.prog (min 1 (((2 : ℚ) + min 1 3) / ((2 : ℚ) + 1)))
        (some ⟨none, 2⟩)] := by
  have h := C6_engine_progress 2 1 [0, 1/2, 1] 3 (by decide) (by
    intro p hp
    fin_cases hp <;> norm_num)
  simpa using h

/-!
## Staging-loop lemmas and claim C9
-/

theorem stageLoop_err_none :
    ∀ (scenes : List Scene) (i : Nat),
      (∀ s ∈ scenes, s.imageBlob.isSome ∧ s.audioBlob.isSome) →
      (stageLoop scenes i).2.1 = none ∧
      (stageLoop scenes i).2.2.length = scenes.length := by
  intro scenes
  induction scenes with
  | nil => intro i _; exact ⟨rfl, rfl⟩
  | cons s rest ih =>
    intro i hval
    have hs := hval s (List.mem_cons_self _ _)
    rcases himg : s.imageBlob with _ | ib
    · rw [himg] at hs; simp at hs
    rcases haud : s.audioBlob with _ | ab
    · rw [haud] at hs; simp at hs
    have hr := ih (i + 1) (fun s' hs' => hval s' (List.mem_cons_of_mem _ hs'))
    simp only [stageLoop, himg, haud]
    exact ⟨hr.1, by simp [hr.2]⟩

theorem assembleVideo_no_err (scenes : List Scene) (subs : Bool)
    (oracle : Nat → ExecB) (fetch : String → FetchRes)
    (hval : ∀ s ∈ scenes, s.imageBlob.isSome ∧ s.audioBlob.isSome)
    (msg : String) :
    (assembleVideo scenes subs oracle fetch).2 ≠ Res.err msg := by
  have he := (stageLoop_err_none scenes 0 hval).1
  simp only [assembleVideo, he]
  cases hok : (sceneLoop scenes.length oracle subs (stageLoop scenes 0).2.2 0 0).2.1 with
  | false => simp [hok]
  | true =>
    simp only [hok, if_true]
    cases hcs : (oracle (sceneLoop scenes.length oracle subs
        (stageLoop scenes 0).2.2 0 0).2.2.1).success <;>
      simp [hcs]

/-- Concrete inputs used by the witnesses below. -/
def wImg : Blob := ⟨"image/png", 0⟩

def wAud : Blob := ⟨"audio/wav", 1000⟩

def wAudMp3 : Blob := ⟨"audio/mpeg", 2500⟩

def wScene : Scene := ⟨some wImg, some wAud, none⟩

def wSceneB : Scene := ⟨some wImg, some wAudMp3, some "hello [pause] there"⟩

def wSceneBad : Scene := ⟨some wImg, none, none⟩

def wOracleOk : Nat → ExecB := fun _ => ⟨[], true⟩

def wOracleFail01 : Nat → ExecB := fun k => if k < 2 then ⟨[], false⟩ else ⟨[], true⟩

def wOracleFail0 : Nat → ExecB := fun k => if k = 0 then ⟨[], false⟩ else ⟨[], true⟩

def wFetchFail : String → FetchRes := fun _ => FetchRes.thrown

def wFetchOk : String → FetchRes := fun _ => FetchRes.ok 7

/-- Claim C9 (confirmed): a scene whose `narration` is null, undefined or
absent is tolerated: the cleaner maps it to the same result as the empty
string, namely the single-space cue `' '`; the scene still yields a one-cue
subtitle document whose cue text is `' '`; and no error is raised on the
narration path — the only thrown error of `assembleVideo` is the
missing-image-or-audio check, which never fires when every scene has both
blobs, whatever the narrations are. -/
theorem C9_null_narration (scenes : List Scene) (subs : Bool)
    (oracle : Nat → ExecB) (fetch : String → FetchRes) (durMs : Nat)
    (msg : String)
    (hval : ∀ s ∈ scenes, s.imageBlob.isSome ∧ s.audioBlob.isSome) :
    cleanNarrationForSubtitles none = " " ∧
    cleanNarrationForSubtitles none = cleanNarrationForSubtitles (some "") ∧
    sceneToSRT none 0 durMs =
      "1\n" ++ fmtMs 0 ++ " --> " ++ fmtMs durMs ++ "\n" ++ " " ++ "\n" ∧
    (assembleVideo scenes subs oracle fetch).2 ≠ Res.err msg := by
  refine ⟨by decide, by decide, ?_,
    assembleVideo_no_err scenes subs oracle fetch hval msg⟩
  unfold sceneToSRT
  rw [show cleanNarrationForSubtitles none = " " from by decide]

/-- Witness for `C9_null_narration`: a singleton scene list with a
narration-free scene that has both blobs. -/
theorem C9_witness :
    cleanNarrationForSubtitles none = " " ∧
    cleanNarrationForSubtitles none = cleanNarrationForSubtitles (some "") ∧
    sceneToSRT none 0 1000 =
      "1\n" ++ fmtMs 0 ++ " --> " ++ fmtMs 1000 ++ "\n" ++ " " ++ "\n" ∧
    (assembleVideo [wScene] true wOracleOk wFetchFail).2 ≠ Res.err "boom" :=
  C9_null_narration [wScene] true wOracleOk wFetchFail 1000 "boom" (by decide)

/-!
## Claim C1: missing-media precondition
-/

theorem stageLoop_err_of_firstMissing :
    ∀ (scenes : List Scene) (i j : Nat), firstMissing scenes = some j →
      (stageLoop scenes i).2.1 = some (missingMsg (i + j + 1)) := by
  intro scenes
  induction scenes with
  | nil => intro i j h; simp [firstMissing] at h
  | cons s rest ih =>
    intro i j h
    obtain ⟨img, aud, narr⟩ := s
    cases img with
    | none =>
      simp only [firstMissing, Option.isNone_none, Bool.true_or, if_pos] at h
      have hj : j = 0 := by
        cases h; rfl
      subst hj
      simp [stageLoop]
    | some ib =>
      cases aud with
      | none =>
        simp only [firstMissing, Option.isNone_none, Option.isNone_some,
          Bool.or_true, if_pos] at h
        have hj : j = 0 := by
          cases h; rfl
        subst hj
        simp [stageLoop]
      | some ab =>
        simp only [firstMissing, Option.isNone_some, Bool.or_self,
          Bool.false_eq_true, if_false] at h
        rcases hfm : firstMissing rest with _ | j'
        · rw [hfm] at h; simp at h
        · rw [hfm] at h
          have hj : j = j' + 1 := by
            simp at h
            omega
          subst hj
          simp only [stageLoop]
          rw [ih (i + 1) j' hfm]
          congr 2
          omega

theorem stageLoop_no_exec (scenes : List Scene) :
    ∀ i, ∀ e ∈ (stageLoop scenes i).1, isExecEv e = false := by
  induction scenes with
  | nil => intro i e he; simp [stageLoop] at he
  | cons s rest ih =>
    intro i e he
    obtain ⟨img, aud, narr⟩ := s
    cases img with
    | none => simp [stageLoop] at he
    | some ib =>
      cases aud with
      | none => simp [stageLoop] at he
      | some ab =>
        simp only [stageLoop, List.mem_cons] at he
        rcases he with he | he | he
        · rw [he]; rfl
        · rw [he]; rfl
        · exact ih (i + 1) e he

theorem loadFont_no_exec (fetch : String → FetchRes) :
    ∀ e ∈ (loadFontForSubtitles fetch).2, isExecEv e = false := by
  intro e he
  unfold loadFontForSubtitles at he
  cases h1 : fetch LOCAL_FONT_PATH <;> rw [h1] at he
  case ok _ =>
    simp only [List.mem_cons, List.not_mem_nil, or_false] at he
    rcases he with he | he <;> (rw [he]; rfl)
  all_goals
    cases h2 : fetch FONT_URL <;> rw [h2] at he <;>
      simp only [List.mem_cons, List.not_mem_nil, or_false] at he
  case thrown.ok _ =>
    rcases he with he | he <;> (rw [he]; rfl)
  case notOk.ok _ =>
    rcases he with he | he <;> (rw [he]; rfl)
  all_goals (rw [he]; rfl)

/-- Claim C1 as stated is false at a concrete input: for the two-scene list
whose second scene lacks `audioBlob` (with subtitles enabled and the local
font reachable), `assembleVideo` does reject with the message identifying
"Scene 2", but NOT before files are written into the engine filesystem — the
font file and scene 1's staged image and audio files are already written when
the check on scene 2 throws, because the missing-media check runs inside the
same loop that stages each scene's files. -/
theorem C1_cex :
    (assembleVideo [wSceneB, wSceneBad] true wOracleOk wFetchOk).2 =
      Res.err "Scene 2 missing image or audio" ∧
    Ev.writeFile "fonts/DejaVuSans.ttf" none ∈
      (assembleVideo [wSceneB, wSceneBad] true wOracleOk wFetchOk).1 ∧
    Ev.writeFile "scene_0_img.png" none ∈
      (assembleVideo [wSceneB, wSceneBad] true wOracleOk wFetchOk).1 ∧
    Ev.writeFile "scene_0_audio.mp3" none ∈
      (assembleVideo [wSceneB, wSceneBad] true wOracleOk wFetchOk).1 := by
  refine ⟨?_, ?_, ?_, ?_⟩ <;> decide

/-- Claim C1 (corrected): when some scene lacks a non-null `imageBlob` or
`audioBlob`, `assembleVideo` rejects with an error message identifying the
1-based number of the first offending scene, and it does so before any engine
command is executed (no encode and no concat command appears in the trace) —
but not before any file is written: the font file and the staged files of the
scenes preceding the offending one may already be in the engine filesystem. -/
theorem C1_amended (scenes : List Scene) (subs : Bool) (oracle : Nat → ExecB)
    (fetch : String → FetchRes) (j : Nat)
    (hj : firstMissing scenes = some j) :
    (assembleVideo scenes subs oracle fetch).2 =
      Res.err ("Scene " ++ Nat.repr (j + 1) ++ " missing image or audio") ∧
    ∀ e ∈ (assembleVideo scenes subs oracle fetch).1, isExecEv e = false := by
  have he := stageLoop_err_of_firstMissing scenes 0 j hj
  have hmsg : missingMsg (0 + j + 1) =
      "Scene " ++ Nat.repr (j + 1) ++ " missing image or audio" := by
    have hx : 0 + j + 1 = j + 1 := by omega
    rw [hx]
    rfl
  constructor
  · simp only [assembleVideo, he, hmsg]
  · intro e hmem
    simp only [assembleVideo, he] at hmem
    rcases List.mem_cons.mp hmem with h' | hmem'
    · rw [h']; rfl
    rcases List.mem_cons.mp hmem' with h' | hmem''
    · rw [h']; rfl
    rcases List.mem_append.mp hmem'' with h' | h'
    · by_cases hsubs : subs = true
      · rw [hsubs] at h'
        simp only [if_true] at h'
        exact loadFont_no_exec fetch e h'
      · rw [Bool.not_eq_true] at hsubs
        rw [hsubs] at h'
        simp at h'
    · exact stageLoop_no_exec scenes 0 e h'

/-- Witness for `C1_amended` at the concrete two-scene input of `C1_cex`. -/
theorem C1_witness :
    (assembleVideo [wSceneB, wSceneBad] false wOracleOk wFetchFail).2 =
      Res.err ("Scene " ++ Nat.repr (1 + 1) ++ " missing image or audio") ∧
    ∀ e ∈ (assembleVideo [wSceneB, wSceneBad] false wOracleOk wFetchFail).1,
      isExecEv e = false :=
  C1_amended [wSceneB, wSceneBad] false wOracleOk wFetchFail 1 (by decide)

/-!
## Claim C2: encode-failure retry policy
-/

theorem execEncs_append (l1 l2 : List Ev) :
    execEncs (l1 ++ l2) = execEncs l1 ++ execEncs l2 := by
  induction l1 with
  | nil => rfl
  | cons e rest ih =>
    cases e <;> simp [execEncs, ih]

theorem execConcats_append (l1 l2 : List Ev) :
    execConcats (l1 ++ l2) = execConcats l1 ++ execConcats l2 := by
  induction l1 with
  | nil => rfl
  | cons e rest ih =>
    cases e <;> simp [execConcats, ih]

theorem execEncs_engineProgEvs (N i : Nat) (ps : List ℚ) :
    execEncs (engineProgEvs N i ps) = [] := by
  induction ps with
  | nil => rfl
  | cons p rest ih => simp [engineProgEvs, execEncs] at ih ⊢; exact ih

theorem execConcats_engineProgEvs (N i : Nat) (ps : List ℚ) :
    execConcats (engineProgEvs N i ps) = [] := by
  induction ps with
  | nil => rfl
  | cons p rest ih => simp [engineProgEvs, execConcats] at ih ⊢; exact ih

theorem execConcats_eq_nil_of_no_exec (l : List Ev)
    (h : ∀ e ∈ l, isExecEv e = false) : execConcats l = [] := by
  induction l with
  | nil => rfl
  | cons e rest ih =>
    have he := h e (List.mem_cons_self _ _)
    cases e <;> simp [execConcats] <;>
      first
        | exact ih (fun e' h' => h e' (List.mem_cons_of_mem _ h'))
        | exact absurd he (by simp [isExecEv])

theorem execConcats_renderScene (N : Nat) (oracle : Nat → ExecB) (k i : Nat)
    (narr : Option String) (ext : String) (durMs : Nat) (subs : Bool) :
    execConcats (renderScene N oracle k i narr ext durMs subs).1 = [] := by
  unfold renderScene
  cases h : (oracle k).success <;>
    simp [h, execConcats_append, execConcats, execConcats_engineProgEvs]

theorem execConcats_sceneLoop (N : Nat) (oracle : Nat → ExecB) (subs : Bool) :
    ∀ (metas : List (Option String × String × Nat)) (i k : Nat),
      execConcats (sceneLoop N oracle subs metas i k).1 = [] := by
  intro metas
  induction metas with
  | nil => intro i k; rfl
  | cons m rest ih =>
    intro i k
    simp only [sceneLoop]
    cases h : (renderScene N oracle k i m.1 m.2.1 m.2.2 subs).2.1 <;>
      simp [h, execConcats_append, execConcats_renderScene, ih]

theorem stageLoop_err_none_of_firstMissing :
    ∀ (scenes : List Scene) (i : Nat), firstMissing scenes = none →
      (stageLoop scenes i).2.1 = none := by
  intro scenes
  induction scenes with
  | nil => intro i _; rfl
  | cons s rest ih =>
    intro i h
    obtain ⟨img, aud, narr⟩ := s
    cases img with
    | none => simp [firstMissing] at h
    | some ib =>
      cases aud with
      | none => simp [firstMissing] at h
      | some ab =>
        simp only [firstMissing, Option.isNone_some, Bool.or_self,
          Bool.false_eq_true, if_false] at h
        rcases hfm : firstMissing rest with _ | j'
        · simp only [stageLoop]
          exact ih (i + 1) hfm
        · rw [hfm] at h; simp at h

/-- Claim C2 as stated is false at a concrete input: with
`includeSubtitles = false` and an engine whose first command fails, the failed
scene encode is NOT fatal — the source's try/catch wraps the encode
unconditionally, so the scene is retried once (with the identical
scale-then-pad filter chain) and the run completes successfully with two
encode commands for scene 1 in the trace. -/
theorem C2_cex :
    (assembleVideo [wScene] false wOracleFail0 wFetchFail).2 = Res.ok ∧
    (execEncs (assembleVideo [wScene] false wOracleFail0 wFetchFail).1).length = 2 ∧
    (execEncs (assembleVideo [wScene] false wOracleFail0 wFetchFail).1).map
        (fun a => a.vf) =
      [[VFilter.scale, VFilter.pad], [VFilter.scale, VFilter.pad]] ∧
    (execEncs (assembleVideo [wScene] false wOracleFail0 wFetchFail).1).map
        (fun a => a.out) = [vidName 0, vidName 0] := by
  refine ⟨?_, ?_, ?_, ?_⟩ <;> decide

/-- Claim C2 (corrected): whenever the first encode command of a scene fails —
with or without subtitles — the scene is retried exactly once with the
subtitle-free scale-then-pad filter chain and otherwise identical arguments
(same total duration, codec parameters, input and output files); the scene's
outcome is the retry's outcome; when the retry also fails the loop stops at
that scene (no later scene is attempted), and the whole run rejects with the
engine failure before any concat command is issued.  With
`includeSubtitles = false` the retry is an identical second command, not a
fatal-on-first-failure path as claimed. -/
theorem C2_amended (N k i durMs : Nat) (narr : Option String) (ext : String)
    (subs : Bool) (oracle : Nat → ExecB)
    (rest : List (Option String × String × Nat))
    (h0 : (oracle k).success = false) :
    execEncs (renderScene N oracle k i narr ext durMs subs).1 =
      [encArgs i ((durMs : ℚ) / 1000 + GAP_SEC) ext (sceneVF subs i),
       encArgs i ((durMs : ℚ) / 1000 + GAP_SEC) ext [VFilter.scale, VFilter.pad]] ∧
    (renderScene N oracle k i narr ext durMs subs).2.1 = (oracle (k + 1)).success ∧
    ((oracle (k + 1)).success = false →
      sceneLoop N oracle subs ((narr, ext, durMs) :: rest) i k =
        ((renderScene N oracle k i narr ext durMs subs).1, false, k + 2, [])) ∧
    (∀ (scenes : List Scene) (fetch : String → FetchRes),
      firstMissing scenes = none →
      (sceneLoop scenes.length oracle subs (stageLoop scenes 0).2.2 0 0).2.1 = false →
      (assembleVideo scenes subs oracle fetch).2 = Res.execFailed ∧
      execConcats (assembleVideo scenes subs oracle fetch).1 = []) := by
  refine ⟨?_, ?_, ?_, ?_⟩
  · simp only [renderScene, h0, Bool.false_eq_true, if_false]
    rw [execEncs_append, execEncs_append]
    simp [execEncs, execEncs_engineProgEvs]
  · simp [renderScene, h0]
  · intro h1
    have hr1 : (renderScene N oracle k i narr ext durMs subs).2.1 = false := by
      simp [renderScene, h0, h1]
    have hr2 : (renderScene N oracle k i narr ext durMs subs).2.2 = k + 2 := by
      simp [renderScene, h0]
    simp only [sceneLoop, hr1, Bool.false_eq_true, if_false]
    rw [hr2]
  · intro scenes fetch hfm hloop
    have he := stageLoop_err_none_of_firstMissing scenes 0 hfm
    constructor
    · simp only [assembleVideo, he, hloop]
      simp
    · simp only [assembleVideo, he, hloop, Bool.false_eq_true, if_false]
      simp only [List.cons_append, List.append_assoc, execConcats,
        execConcats_append]
      simp only [List.append_eq, execConcats_append]
      rw [execConcats_sceneLoop]
      rw [execConcats_eq_nil_of_no_exec _ (stageLoop_no_exec scenes 0)]
      cases subs with
      | true =>
        simp only [if_true]
        rw [execConcats_eq_nil_of_no_exec _ (loadFont_no_exec fetch)]
        simp [execConcats]
      | false => simp [execConcats]

/-- Witness for `C2_amended`: a single valid scene, an oracle whose first two
commands (the encode and its retry) fail. -/
theorem C2_witness :
    execEncs (renderScene 1 wOracleFail01 0 0 none "wav" 1000 true).1 =
      [encArgs 0 ((1000 : ℚ) / 1000 + GAP_SEC) "wav" (sceneVF true 0),
       encArgs 0 ((1000 : ℚ) / 1000 + GAP_SEC) "wav" [VFilter.scale, VFilter.pad]] ∧
    (renderScene 1 wOracleFail01 0 0 none "wav" 1000 true).2.1 =
      (wOracleFail01 (0 + 1)).success ∧
    ((wOracleFail01 (0 + 1)).success = false →
      sceneLoop 1 wOracleFail01 true [(none, "wav", 1000)] 0 0 =
        ((renderScene 1 wOracleFail01 0 0 none "wav" 1000 true).1, false, 0 + 2, [])) ∧
    (∀ (scenes : List Scene) (fetch : String → FetchRes),
      firstMissing scenes = none →
      (sceneLoop scenes.length wOracleFail01 true (stageLoop scenes 0).2.2 0 0).2.1 = false →
      (assembleVideo scenes true wOracleFail01 fetch).2 = Res.execFailed ∧
      execConcats (assembleVideo scenes true wOracleFail01 fetch).1 = []) :=
  C2_amended 1 0 0 1000 none "wav" true wOracleFail01 [] (by decide)

/-!
## Claim C7: concatenation manifest order
-/

theorem sceneLoop_ok_of_success (N : Nat) (oracle : Nat → ExecB) (subs : Bool)
    (hsucc : ∀ k, (oracle k).success = true) :
    ∀ (metas : List (Option String × String × Nat)) (i k : Nat),
      (sceneLoop N oracle subs metas i k).2.1 = true ∧
      (sceneLoop N oracle subs metas i k).2.2.2 =
        (List.range' i metas.length).map vidName := by
  intro metas
  induction metas with
  | nil => intro i k; exact ⟨rfl, rfl⟩
  | cons m rest ih =>
    intro i k
    have hr : (renderScene N oracle k i m.1 m.2.1 m.2.2 subs).2.1 = true := by
      simp [renderScene, hsucc k, hsucc (k + 1)]
    simp only [sceneLoop, hr, if_true]
    have h' := ih (i + 1) (renderScene N oracle k i m.1 m.2.1 m.2.2 subs).2.2
    refine ⟨h'.1, ?_⟩
    rw [List.length_cons, List.range'_succ, List.map_cons, h'.2]

/-- Claim C7 (confirmed): for every valid scene list of length `N` (in a run
where the engine commands succeed), the concat manifest written to
`concat.txt` lists exactly the per-scene segment files `scene_0_vid.mp4`
through `scene_(N-1)_vid.mp4`, in ascending input order, with no reordering,
omission or deduplication, and the run produces the output artifact. -/
theorem C7_concat_order (scenes : List Scene) (subs : Bool)
    (oracle : Nat → ExecB) (fetch : String → FetchRes)
    (hval : ∀ s ∈ scenes, s.imageBlob.isSome ∧ s.audioBlob.isSome)
    (hsucc : ∀ k, (oracle k).success = true) :
    Ev.writeFile "concat.txt"
        (some (concatManifest ((List.range scenes.length).map vidName))) ∈
      (assembleVideo scenes subs oracle fetch).1 ∧
    (assembleVideo scenes subs oracle fetch).2 = Res.ok := by
  have hs := stageLoop_err_none scenes 0 hval
  have hl := sceneLoop_ok_of_success scenes.length oracle subs hsucc
    (stageLoop scenes 0).2.2 0 0
  have hvids : (sceneLoop scenes.length oracle subs
      (stageLoop scenes 0).2.2 0 0).2.2.2 =
      (List.range scenes.length).map vidName := by
    rw [hl.2, hs.2, List.range_eq_range']
  constructor
  · simp only [assembleVideo, hs.1, hl.1, if_true, hsucc _, hvids]
    simp [List.mem_append]
  · simp only [assembleVideo, hs.1, hl.1, if_true, hsucc _]

/-- Witness for `C7_concat_order`: a concrete two-scene run. -/
theorem C7_witness :
    Ev.writeFile "concat.txt"
        (some (concatManifest ((List.range ([wScene, wSceneB] : List Scene).length).map vidName))) ∈
      (assembleVideo [wScene, wSceneB] true wOracleOk wFetchOk).1 ∧
    (assembleVideo [wScene, wSceneB] true wOracleOk wFetchOk).2 = Res.ok :=
  C7_concat_order [wScene, wSceneB] true wOracleOk wFetchOk (by decide)
    (fun _ => rfl)

/-!
## Claim C10: the includeSubtitles flag and the per-scene file set
-/

/-- Erase the filter chain of an encode command, leaving the parameters the
`includeSubtitles` flag is claimed not to affect. -/
def stripVF (a : EncArgs) : EncArgs :=
  { a with vf := [] }

theorem writeNames_append (l1 l2 : List Ev) :
    writeNames (l1 ++ l2) = writeNames l1 ++ writeNames l2 := by
  induction l1 with
  | nil => rfl
  | cons e rest ih =>
    cases e <;> simp [writeNames, ih]

theorem writeNames_engineProgEvs (N i : Nat) (ps : List ℚ) :
    writeNames (engineProgEvs N i ps) = [] := by
  induction ps with
  | nil => rfl
  | cons p rest ih => simp [engineProgEvs, writeNames] at ih ⊢; exact ih

theorem writeNames_renderScene (N : Nat) (oracle : Nat → ExecB) (k i : Nat)
    (narr : Option String) (ext : String) (durMs : Nat) (subs : Bool) :
    writeNames (renderScene N oracle k i narr ext durMs subs).1 = [srtName i] := by
  unfold renderScene
  cases h : (oracle k).success <;>
    simp [h, writeNames_append, writeNames, writeNames_engineProgEvs]

theorem renderScene_snd_subs_indep (N : Nat) (oracle : Nat → ExecB) (k i : Nat)
    (narr : Option String) (ext : String) (durMs : Nat) :
    (renderScene N oracle k i narr ext durMs true).2 =
      (renderScene N oracle k i narr ext durMs false).2 := by
  unfold renderScene
  cases h : (oracle k).success <;> simp [h]

theorem execEncs_stripVF_renderScene (N : Nat) (oracle : Nat → ExecB) (k i : Nat)
    (narr : Option String) (ext : String) (durMs : Nat) :
    (execEncs (renderScene N oracle k i narr ext durMs true).1).map stripVF =
      (execEncs (renderScene N oracle k i narr ext durMs false).1).map stripVF := by
  unfold renderScene
  cases h : (oracle k).success <;>
    simp [h, execEncs_append, execEncs, execEncs_engineProgEvs, stripVF, encArgs]

theorem sceneLoop_subs_indep (N : Nat) (oracle : Nat → ExecB) :
    ∀ (metas : List (Option String × String × Nat)) (i k : Nat),
      writeNames (sceneLoop N oracle true metas i k).1 =
        writeNames (sceneLoop N oracle false metas i k).1 ∧
      (sceneLoop N oracle true metas i k).2 =
        (sceneLoop N oracle false metas i k).2 ∧
      (execEncs (sceneLoop N oracle true metas i k).1).map stripVF =
        (execEncs (sceneLoop N oracle false metas i k).1).map stripVF := by
  intro metas
  induction metas with
  | nil => intro i k; exact ⟨rfl, rfl, rfl⟩
  | cons m rest ih =>
    intro i k
    have hsnd := renderScene_snd_subs_indep N oracle k i m.1 m.2.1 m.2.2
    have hrw := writeNames_renderScene N oracle k i m.1 m.2.1 m.2.2
    have hre := execEncs_stripVF_renderScene N oracle k i m.1 m.2.1 m.2.2
    have ih' := ih (i + 1) (renderScene N oracle k i m.1 m.2.1 m.2.2 false).2.2
    simp only [sceneLoop]
    cases hok : (renderScene N oracle k i m.1 m.2.1 m.2.2 false).2.1 with
    | false =>
      have hok' : (renderScene N oracle k i m.1 m.2.1 m.2.2 true).2.1 = false := by
        rw [show (renderScene N oracle k i m.1 m.2.1 m.2.2 true).2.1 =
          (renderScene N oracle k i m.1 m.2.1 m.2.2 false).2.1 from by rw [hsnd]]
        exact hok
      simp only [hok, hok', Bool.false_eq_true, if_false]
      refine ⟨?_, ?_, hre⟩
      · rw [hrw true, hrw false]
      · rw [hsnd]
    | true =>
      have hok' : (renderScene N oracle k i m.1 m.2.1 m.2.2 true).2.1 = true := by
        rw [show (renderScene N oracle k i m.1 m.2.1 m.2.2 true).2.1 =
          (renderScene N oracle k i m.1 m.2.1 m.2.2 false).2.1 from by rw [hsnd]]
        exact hok
      have hk : (renderScene N oracle k i m.1 m.2.1 m.2.2 true).2.2 =
          (renderScene N oracle k i m.1 m.2.1 m.2.2 false).2.2 := by rw [hsnd]
      simp only [hok, hok', if_true, hk]
      refine ⟨?_, ?_, ?_⟩
      · rw [writeNames_append, writeNames_append, hrw true, hrw false, ih'.1]
      · simp only [ih'.2.1]
      · rw [execEncs_append, execEncs_append, List.map_append, List.map_append,
          hre, ih'.2.2]

theorem execEncs_eq_nil_of_no_exec (l : List Ev)
    (h : ∀ e ∈ l, isExecEv e = false) : execEncs l = [] := by
  induction l with
  | nil => rfl
  | cons e rest ih =>
    have he := h e (List.mem_cons_self _ _)
    cases e <;> simp [execEncs] <;>
      first
        | exact ih (fun e' h' => h e' (List.mem_cons_of_mem _ h'))
        | exact absurd he (by simp [isExecEv])

theorem writeNames_sceneLoop_of_success (N : Nat) (oracle : Nat → ExecB)
    (subs : Bool) (hsucc : ∀ k, (oracle k).success = true) :
    ∀ (metas : List (Option String × String × Nat)) (i k : Nat),
      writeNames (sceneLoop N oracle subs metas i k).1 =
        (List.range' i metas.length).map srtName := by
  intro metas
  induction metas with
  | nil => intro i k; rfl
  | cons m rest ih =>
    intro i k
    have hr : (renderScene N oracle k i m.1 m.2.1 m.2.2 subs).2.1 = true := by
      simp [renderScene, hsucc k, hsucc (k + 1)]
    simp only [sceneLoop, hr, if_true]
    rw [writeNames_append, writeNames_renderScene,
      ih (i + 1) (renderScene N oracle k i m.1 m.2.1 m.2.2 subs).2.2,
      List.length_cons, List.range'_succ, List.map_cons]
    rfl

/-- Claim C10 (confirmed): in a successful run over valid scenes, the
subtitle document `scene_i.srt` is written for every scene even with
`includeSubtitles = false`; the flag changes only which filter chain the
encode commands carry and whether the font loader's file is written first —
the run outcome, the encode commands modulo their filter chain, and the rest
of the written-file sequence are identical between the two flag values. -/
theorem C10_srt_always_written (scenes : List Scene) (oracle : Nat → ExecB)
    (fetch : String → FetchRes)
    (hval : ∀ s ∈ scenes, s.imageBlob.isSome ∧ s.audioBlob.isSome)
    (hsucc : ∀ k, (oracle k).success = true) :
    writeNames (assembleVideo scenes true oracle fetch).1 =
      writeNames (loadFontForSubtitles fetch).2 ++
        writeNames (assembleVideo scenes false oracle fetch).1 ∧
    (assembleVideo scenes true oracle fetch).2 =
      (assembleVideo scenes false oracle fetch).2 ∧
    (execEncs (assembleVideo scenes true oracle fetch).1).map stripVF =
      (execEncs (assembleVideo scenes false oracle fetch).1).map stripVF ∧
    ∀ i < scenes.length,
      srtName i ∈ writeNames (assembleVideo scenes false oracle fetch).1 := by
  have hs := stageLoop_err_none scenes 0 hval
  have hsl := sceneLoop_subs_indep scenes.length oracle (stageLoop scenes 0).2.2 0 0
  have hokT := (sceneLoop_ok_of_success scenes.length oracle true hsucc
    (stageLoop scenes 0).2.2 0 0).1
  have hokF := (sceneLoop_ok_of_success scenes.length oracle false hsucc
    (stageLoop scenes 0).2.2 0 0).1
  have hksame : (sceneLoop scenes.length oracle true
      (stageLoop scenes 0).2.2 0 0).2.2.1 =
      (sceneLoop scenes.length oracle false
      (stageLoop scenes 0).2.2 0 0).2.2.1 := by
    rw [hsl.2.1]
  have hvsame : (sceneLoop scenes.length oracle true
      (stageLoop scenes 0).2.2 0 0).2.2.2 =
      (sceneLoop scenes.length oracle false
      (stageLoop scenes 0).2.2 0 0).2.2.2 := by
    rw [hsl.2.1]
  refine ⟨?_, ?_, ?_, ?_⟩
  · simp only [assembleVideo, hs.1, hokT, hokF, if_true, hsucc _,
      List.cons_append, List.append_assoc]
    simp only [writeNames, writeNames_append, List.append_eq,
      writeNames_engineProgEvs, hsl.1, hksame, hvsame, if_true]
    simp [List.append_assoc]
  · simp only [assembleVideo, hs.1, hokT, hokF, if_true, hsucc _]
  · simp only [assembleVideo, hs.1, hokT, hokF, if_true, hsucc _,
      List.cons_append, List.append_assoc]
    simp only [execEncs, execEncs_append, List.append_eq,
      execEncs_engineProgEvs, List.map_append, hsl.2.2, if_true]
    rw [execEncs_eq_nil_of_no_exec _ (loadFont_no_exec fetch)]
  · intro i hi
    have hmem : srtName i ∈ writeNames (sceneLoop scenes.length oracle false
        (stageLoop scenes 0).2.2 0 0).1 := by
      rw [writeNames_sceneLoop_of_success scenes.length oracle false hsucc,
        hs.2, ← List.range_eq_range']
      exact List.mem_map.mpr ⟨i, List.mem_range.mpr hi, rfl⟩
    simp only [assembleVideo, hs.1, hokF, if_true, hsucc _,
      List.cons_append, List.append_assoc]
    simp only [writeNames, writeNames_append, List.append_eq,
      writeNames_engineProgEvs, List.mem_append]
    simp [hmem]

/-- Witness for `C10_srt_always_written`: a concrete two-scene run with the
local font reachable. -/
theorem C10_witness :
    writeNames (assembleVideo [wScene, wSceneB] true wOracleOk wFetchOk).1 =
      writeNames (loadFontForSubtitles wFetchOk).2 ++
        writeNames (assembleVideo [wScene, wSceneB] false wOracleOk wFetchOk).1 ∧
    (assembleVideo [wScene, wSceneB] true wOracleOk wFetchOk).2 =
      (assembleVideo [wScene, wSceneB] false wOracleOk wFetchOk).2 ∧
    (execEncs (assembleVideo [wScene, wSceneB] true wOracleOk wFetchOk).1).map stripVF =
      (execEncs (assembleVideo [wScene, wSceneB] false wOracleOk wFetchOk).1).map stripVF ∧
    ∀ i < ([wScene, wSceneB] : List Scene).length,
      srtName i ∈ writeNames (assembleVideo [wScene, wSceneB] false wOracleOk wFetchOk).1 :=
  C10_srt_always_written [wScene, wSceneB] wOracleOk wFetchOk (by decide)
    (fun _ => rfl)

/-!
## Claim C3: the reported overall-fraction sequence
-/

theorem progFracs_append (l1 l2 : List Ev) :
    progFracs (l1 ++ l2) = progFracs l1 ++ progFracs l2 := by
  induction l1 with
  | nil => rfl
  | cons e rest ih =>
    cases e <;> simp [progFracs, ih]

theorem progFracs_engineProgEvs (N i : Nat) (ps : List ℚ) :
    progFracs (engineProgEvs N i ps) = ps.map (stepFrac N i) := by
  induction ps with
  | nil => rfl
  | cons p rest ih =>
    simp only [engineProgEvs, List.map_cons, progFracs] at ih ⊢
    rw [ih]
    rfl

theorem progFracs_loadFont (fetch : String → FetchRes) :
    progFracs (loadFontForSubtitles fetch).2 = [] := by
  unfold loadFontForSubtitles
  cases h1 : fetch LOCAL_FONT_PATH <;> try rfl
  all_goals (cases h2 : fetch FONT_URL <;> rfl)

theorem progFracs_fontEvs (subs : Bool) (fetch : String → FetchRes) :
    progFracs (if subs = true then (loadFontForSubtitles fetch).2 else []) = [] := by
  cases subs with
  | true => simp [progFracs_loadFont]
  | false => rfl

theorem progFracs_stageLoop (scenes : List Scene) :
    ∀ i, progFracs (stageLoop scenes i).1 = [] := by
  induction scenes with
  | nil => intro i; rfl
  | cons s rest ih =>
    intro i
    obtain ⟨img, aud, narr⟩ := s
    cases img with
    | none => rfl
    | some ib =>
      cases aud with
      | none => rfl
      | some ab =>
        simp only [stageLoop, progFracs]
        exact ih (i + 1)

theorem chain_le_of_le {a b : ℚ} {l : List ℚ} (hab : a ≤ b)
    (h : List.Chain (· ≤ ·) b l) : List.Chain (· ≤ ·) a l := by
  cases l with
  | nil => exact List.Chain.nil
  | cons x xs =>
    rcases List.chain_cons.mp h with ⟨hbx, hxs⟩
    exact List.chain_cons.mpr ⟨le_trans hab hbx, hxs⟩

theorem chain_le_all {a : ℚ} {l : List ℚ} (h : List.Chain (· ≤ ·) a l) :
    ∀ x ∈ l, a ≤ x := by
  induction l generalizing a with
  | nil => intro x hx; cases hx
  | cons y ys ih =>
    intro x hx
    rcases List.chain_cons.mp h with ⟨hay, hys⟩
    rcases List.mem_cons.mp hx with hx | hx
    · exact hx ▸ hay
    · exact le_trans hay (ih hys x hx)

theorem chain_le_append {a b : ℚ} {l1 l2 : List ℚ}
    (h1 : List.Chain (· ≤ ·) a l1) (hb : ∀ x ∈ l1, x ≤ b) (hab : a ≤ b)
    (h2 : List.Chain (· ≤ ·) b l2) : List.Chain (· ≤ ·) a (l1 ++ l2) := by
  induction l1 generalizing a with
  | nil => exact chain_le_of_le hab h2
  | cons x xs ih =>
    rcases List.chain_cons.mp h1 with ⟨hax, hxs⟩
    refine List.chain_cons.mpr ⟨hax, ?_⟩
    exact ih hxs (fun y hy => hb y (List.mem_cons_of_mem _ hy))
      (hb x (List.mem_cons_self _ _))

theorem stepFrac_mono (N i : Nat) {p q : ℚ} (h : p ≤ q) :
    stepFrac N i p ≤ stepFrac N i q := by
  unfold stepFrac
  have hden : (0 : ℚ) < (N : ℚ) + 1 := by positivity
  refine min_le_min le_rfl ?_
  rw [div_le_div_iff_of_pos_right hden]
  exact add_le_add le_rfl (min_le_min le_rfl h)

theorem stepFrac_lower (N i : Nat) (hiN : i ≤ N) {p : ℚ} (h0 : 0 ≤ p) :
    (i : ℚ) / ((N : ℚ) + 1) ≤ stepFrac N i p := by
  unfold stepFrac
  have hden : (0 : ℚ) < (N : ℚ) + 1 := by positivity
  refine le_min ?_ ?_
  · rw [div_le_one hden]
    have : (i : ℚ) ≤ (N : ℚ) := by exact_mod_cast hiN
    linarith
  · rw [div_le_div_iff_of_pos_right hden]
    have : (0 : ℚ) ≤ min 1 p := le_min (by norm_num) h0
    linarith

theorem stepFrac_upper (N i : Nat) (p : ℚ) :
    stepFrac N i p ≤ ((i : ℚ) + 1) / ((N : ℚ) + 1) := by
  unfold stepFrac
  have hden : (0 : ℚ) < (N : ℚ) + 1 := by positivity
  refine le_trans (min_le_right _ _) ?_
  rw [div_le_div_iff_of_pos_right hden]
  have : min 1 p ≤ 1 := min_le_left _ _
  linarith

theorem chain_map_stepFrac (N i : Nat) :
    ∀ (ps : List ℚ) (p : ℚ), List.Chain (· ≤ ·) p ps →
      List.Chain (· ≤ ·) (stepFrac N i p) (ps.map (stepFrac N i)) := by
  intro ps
  induction ps with
  | nil => intro p _; exact List.Chain.nil
  | cons q qs ih =>
    intro p h
    rcases List.chain_cons.mp h with ⟨hpq, hqs⟩
    exact List.chain_cons.mpr ⟨stepFrac_mono N i hpq, ih q hqs⟩

theorem chain_stepFrac_block (N i : Nat) (hiN : i ≤ N) (ps : List ℚ)
    (hch : List.Chain' (· ≤ ·) ps) (hb : ∀ p ∈ ps, 0 ≤ p ∧ p ≤ 1) :
    List.Chain (· ≤ ·) ((i : ℚ) / ((N : ℚ) + 1)) (ps.map (stepFrac N i)) ∧
    ∀ x ∈ ps.map (stepFrac N i), x ≤ ((i : ℚ) + 1) / ((N : ℚ) + 1) := by
  constructor
  · cases ps with
    | nil => exact List.Chain.nil
    | cons p qs =>
      have hp0 : (0 : ℚ) ≤ p := (hb p (List.mem_cons_self _ _)).1
      have hchain : List.Chain (· ≤ ·) p qs := hch
      exact List.chain_cons.mpr
        ⟨stepFrac_lower N i hiN hp0, chain_map_stepFrac N i qs p hchain⟩
  · intro x hx
    rcases List.mem_map.mp hx with ⟨p, _, rfl⟩
    exact stepFrac_upper N i p

theorem progFracs_renderScene_success (N : Nat) (oracle : Nat → ExecB)
    (k i : Nat) (narr : Option String) (ext : String) (durMs : Nat)
    (subs : Bool) (h : (oracle k).success = true) :
    progFracs (renderScene N oracle k i narr ext durMs subs).1 =
      ((i : ℚ) / ((N : ℚ) + 1)) ::
        ((oracle k).progressEvents).map (stepFrac N i) := by
  simp [renderScene, h, progFracs_append, progFracs, progFracs_engineProgEvs]

theorem sceneLoop_fracs_chain (N : Nat) (oracle : Nat → ExecB) (subs : Bool)
    (hsucc : ∀ k, (oracle k).success = true)
    (hmono : ∀ k, List.Chain' (· ≤ ·) (oracle k).progressEvents)
    (hb : ∀ k, ∀ p ∈ (oracle k).progressEvents, 0 ≤ p ∧ p ≤ 1) :
    ∀ (metas : List (Option String × String × Nat)) (i k : Nat) (prev : ℚ),
      i + metas.length ≤ N →
      prev ≤ (i : ℚ) / ((N : ℚ) + 1) →
      List.Chain (· ≤ ·) prev
        (progFracs (sceneLoop N oracle subs metas i k).1) ∧
      ∀ x ∈ progFracs (sceneLoop N oracle subs metas i k).1,
        x ≤ ((i + metas.length : Nat) : ℚ) / ((N : ℚ) + 1) := by
  intro metas
  induction metas with
  | nil =>
    intro i k prev _ _
    exact ⟨List.Chain.nil, by intro x hx; cases hx⟩
  | cons m rest ih =>
    intro i k prev hlen hprev
    have hden : (0 : ℚ) < (N : ℚ) + 1 := by positivity
    have hiN : i ≤ N := by
      simp only [List.length_cons] at hlen
      omega
    have hi1N : (i + 1) + rest.length ≤ N := by
      simp only [List.length_cons] at hlen
      omega
    have hr : (renderScene N oracle k i m.1 m.2.1 m.2.2 subs).2.1 = true := by
      simp [renderScene, hsucc k, hsucc (k + 1)]
    simp only [sceneLoop, hr, if_true]
    rw [progFracs_append,
      progFracs_renderScene_success N oracle k i m.1 m.2.1 m.2.2 subs (hsucc k)]
    have hstep : ((i : ℚ)) / ((N : ℚ) + 1) ≤ ((i : ℚ) + 1) / ((N : ℚ) + 1) := by
      rw [div_le_div_iff_of_pos_right hden]
      linarith
    have hblock := chain_stepFrac_block N i hiN (oracle k).progressEvents
      (hmono k) (hb k)
    have hih := ih (i + 1) (renderScene N oracle k i m.1 m.2.1 m.2.2 subs).2.2
      (((i : ℚ) + 1) / ((N : ℚ) + 1)) hi1N (by push_cast; exact le_refl _)
    constructor
    · refine List.chain_cons.mpr ⟨hprev.trans (le_refl _), ?_⟩
      exact chain_le_append hblock.1 hblock.2 hstep hih.1
    · intro x hx
      have hlen' : ((i + (m :: rest).length : Nat) : ℚ) =
          ((i + 1 + rest.length : Nat) : ℚ) := by
        congr 1
        simp only [List.length_cons]
        omega
      rcases List.mem_cons.mp hx with hx | hx
      · subst hx
        rw [hlen']
        rw [div_le_div_iff_of_pos_right hden]
        push_cast
        linarith [Nat.cast_nonneg (α := ℚ) rest.length]
      · rcases List.mem_append.mp hx with hx | hx
        · have := hblock.2 x hx
          rw [hlen']
          refine this.trans ?_
          rw [div_le_div_iff_of_pos_right hden]
          push_cast
          linarith [Nat.cast_nonneg (α := ℚ) rest.length]
        · have := hih.2 x hx
          rw [hlen']
          exact this

/-- Claim C3 as stated is false at a concrete input: in the one-scene run with
no engine progress events and all commands succeeding, the overall-fraction
sequence delivered to `onProgress` is `[0, 0, 1/2]` — the value `0` is
reported twice (the initial call of line 87 and the scene-0 step call of
line 121, whose value is `0/(N+1) = 0`) and no call ever reports `1`: the
source emits no terminal progress event on completion. -/
theorem C3_cex :
    progFracs (assembleVideo [wScene] false wOracleOk wFetchFail).1 =
      [0, 0, 1/2] ∧
    (progFracs (assembleVideo [wScene] false wOracleOk wFetchFail).1).count 0 = 2 ∧
    (1 : ℚ) ∉ progFracs (assembleVideo [wScene] false wOracleOk wFetchFail).1 := by
  have htr : progFracs (assembleVideo [wScene] false wOracleOk wFetchFail).1 =
      [0, 0, 1/2] := by
    simp [assembleVideo, stageLoop, sceneLoop, renderScene, wScene, wImg, wAud,
      wOracleOk, wFetchFail, extOf, containsSeq, progFracs, engineProgEvs,
      progFracs_append]
    norm_num
  refine ⟨htr, ?_, ?_⟩
  · rw [htr]
    simp [List.count_cons]
  · rw [htr]
    intro hmem
    rcases List.mem_cons.mp hmem with h | hmem
    · norm_num at h
    rcases List.mem_cons.mp hmem with h | hmem
    · norm_num at h
    rcases List.mem_cons.mp hmem with h | hmem
    · norm_num at h
    · cases hmem

/-- Claim C3 (corrected): in a successful run (no scene retry needed) over
valid scenes, with the engine reporting, per command, a non-decreasing
sequence of internal fractions within `[0,1]`, the overall-fraction sequence
passed to `onProgress` is non-decreasing, its first value is `0`, and every
value lies in `[0,1]`.  But `0` is not reported exactly once (the initial call
and the first scene's step call both report `0`, see `C3_cex`), and no call is
guaranteed to report `1`: the pipeline emits no terminal progress event — the
last direct call reports `N/(N+1)` and only an engine callback during the
merge could reach `1`. -/
theorem C3_amended (scenes : List Scene) (subs : Bool) (oracle : Nat → ExecB)
    (fetch : String → FetchRes)
    (hval : ∀ s ∈ scenes, s.imageBlob.isSome ∧ s.audioBlob.isSome)
    (hsucc : ∀ k, (oracle k).success = true)
    (hmono : ∀ k, List.Chain' (· ≤ ·) (oracle k).progressEvents)
    (hb : ∀ k, ∀ p ∈ (oracle k).progressEvents, 0 ≤ p ∧ p ≤ 1) :
    (progFracs (assembleVideo scenes subs oracle fetch).1).head? = some 0 ∧
    List.Chain' (· ≤ ·) (progFracs (assembleVideo scenes subs oracle fetch).1) ∧
    ∀ x ∈ progFracs (assembleVideo scenes subs oracle fetch).1,
      0 ≤ x ∧ x ≤ 1 := by
  have hs := stageLoop_err_none scenes 0 hval
  have hok := (sceneLoop_ok_of_success scenes.length oracle subs hsucc
    (stageLoop scenes 0).2.2 0 0).1
  have hden : (0 : ℚ) < ((scenes.length : ℚ) + 1) := by positivity
  have hlen0 : 0 + (stageLoop scenes 0).2.2.length ≤ scenes.length := by
    rw [hs.2]
    omega
  have hloop := sceneLoop_fracs_chain scenes.length oracle subs hsucc hmono hb
    (stageLoop scenes 0).2.2 0 0 0 hlen0 (by simp)
  have hloopBound : ∀ x ∈ progFracs (sceneLoop scenes.length oracle subs
      (stageLoop scenes 0).2.2 0 0).1,
      x ≤ (scenes.length : ℚ) / ((scenes.length : ℚ) + 1) := by
    intro x hx
    have := hloop.2 x hx
    rwa [show ((0 + (stageLoop scenes 0).2.2.length : Nat) : ℚ) =
      (scenes.length : ℚ) by rw [Nat.zero_add, hs.2]] at this
  have hblockC := chain_stepFrac_block scenes.length scenes.length le_rfl
    (oracle (sceneLoop scenes.length oracle subs
      (stageLoop scenes 0).2.2 0 0).2.2.1).progressEvents
    (hmono _) (hb _)
  have hNfrac0 : (0 : ℚ) ≤ (scenes.length : ℚ) / ((scenes.length : ℚ) + 1) := by
    positivity
  have hNfrac1 : (scenes.length : ℚ) / ((scenes.length : ℚ) + 1) ≤ 1 := by
    rw [div_le_one hden]
    linarith
  have hchainTail : List.Chain (· ≤ ·) (0 : ℚ)
      (progFracs (sceneLoop scenes.length oracle subs
        (stageLoop scenes 0).2.2 0 0).1 ++
       ((scenes.length : ℚ) / ((scenes.length : ℚ) + 1) ::
        ((oracle (sceneLoop scenes.length oracle subs
          (stageLoop scenes 0).2.2 0 0).2.2.1).progressEvents).map
            (stepFrac scenes.length scenes.length))) := by
    refine chain_le_append hloop.1 hloopBound hNfrac0 ?_
    exact List.chain_cons.mpr ⟨le_refl _, hblockC.1⟩
  simp only [assembleVideo, hs.1, hok, if_true, hsucc _, List.cons_append,
    List.append_assoc]
  simp only [progFracs, progFracs_append, progFracs_fontEvs,
    progFracs_stageLoop, progFracs_engineProgEvs, List.nil_append,
    List.append_nil, List.append_eq]
  refine ⟨rfl, ?_, ?_⟩
  · exact hchainTail
  · intro x hx
    rcases List.mem_cons.mp hx with hx | hx
    · subst hx
      exact ⟨le_refl _, by norm_num⟩
    have hx0 : (0 : ℚ) ≤ x := chain_le_all hchainTail x hx
    refine ⟨hx0, ?_⟩
    rcases List.mem_append.mp hx with hx | hx
    · exact (hloopBound x hx).trans hNfrac1
    rcases List.mem_cons.mp hx with hx | hx
    · subst hx
      exact hNfrac1
    · have := hblockC.2 x hx
      refine this.trans ?_
      rw [div_le_one hden]

/-- Witness for `C3_amended` at a concrete one-scene run. -/
theorem C3_witness :
    (progFracs (assembleVideo [wScene] true wOracleOk wFetchOk).1).head? = some 0 ∧
    List.Chain' (· ≤ ·) (progFracs (assembleVideo [wScene] true wOracleOk wFetchOk).1) ∧
    ∀ x ∈ progFracs (assembleVideo [wScene] true wOracleOk wFetchOk).1,
      0 ≤ x ∧ x ≤ 1 :=
  C3_amended [wScene] true wOracleOk wFetchOk (by decide) (fun _ => rfl)
    (fun _ => List.chain'_nil) (fun _ p hp => absurd hp (List.not_mem_nil p))
